import Mathlib

/-!
Shallow embedding of the base64 codec in `src/b64.c` (functions `b64enclen`,
`b64enc`, `b64declen`, `b64dec`), together with theorems settling the
specification claims about it.

Modelling conventions:
* Raw bytes are `Nat` values; every read of a `char` from a byte buffer is
  truncated with `% 256`, modelling the byte-sized memory cell (the C `char`
  is modelled as an unsigned byte, the only reading under which the table
  lookups `b64map[buffer[k]]` stay in bounds).
* Text buffers are `List Char`; an out-of-bounds read returns the `List.getD`
  default (`NUL` for text, `0` for bytes), modelling the unspecified memory
  beyond a caller-supplied buffer as zero-filled.  In C such reads are
  undefined behaviour; the theorems about the read footprints
  (`b64encReads`, `b64decReads`) make every out-of-bounds access explicit.
* `size_t` arithmetic wraps modulo `2 ^ 64` (LP64).  Subtraction, the one
  operation whose wraparound is reachable here, is `szSub`.  The loop
  counters `i`/`j` never approach their machine range on inputs that fit in
  memory and are modelled as plain `Nat`.
* `strchr(b64map, c) - b64map` is modelled as `List.indexOf`, which returns
  64 (the index of the terminating NUL of the C string) when `c` is not in
  the alphabet; for `c = '\0'` this is exactly what `strchr` returns, for
  other non-alphabet characters the C code has undefined behaviour and 64
  stands in as an arbitrary garbage index.
-/

/-- Modulus of `size_t` arithmetic (64-bit platform). -/
def szMod : Nat := 2 ^ 64

/-- Wrapping `size_t` subtraction: `(a - b) mod 2^64` for `a, b < 2^64`. -/
def szSub (a b : Nat) : Nat := (a + szMod - b % szMod) % szMod

/-- The NUL terminator character. -/
def NUL : Char := Char.ofNat 0

/-- The base64 alphabet `b64map` of `b64.c` line 22, as a list of its 64
characters. -/
def b64map : List Char :=
  "ABCDEFGHIJKLMNOPQRSTUVWXYZabcdefghijklmnopqrstuvwxyz0123456789+/".data

/-- The padding character `b64pad` of `b64.c` line 25. -/
def b64pad : Char := '='

/-- The table lookup `b64map[k]`.  Reachable lookups all have `k < 64`; an
out-of-range index returns the default. -/
def mapChar (k : Nat) : Char := b64map.getD k NUL

/-- The lookup `strchr(b64map, c) - b64map` of the decoder: index of the
first occurrence of `c` in the alphabet, 64 if `c` does not occur. -/
def b64idx (c : Char) : Nat := b64map.indexOf c

/-- `b64enclen` (`b64.c` lines 27-40): `(unenc_len + 2) / 3 * 4 + 1` in
`size_t` arithmetic. -/
def b64enclen (unenc_len : Nat) : Nat :=
  ((unenc_len + 2) % szMod / 3 * 4 + 1) % szMod

/-- Iteration count of the encoder's main loop
`for (i = 0; i < unenc_len - remainder; i += 3)`: the bound is
`unenc_len - unenc_len % 3` (no `size_t` underflow is possible) and `i`
steps by 3 from 0. -/
def encLoopIters (unenc_len : Nat) : Nat := (unenc_len - unenc_len % 3) / 3

/-- Characters emitted by `g` iterations of the encoder's main loop
(`b64.c` lines 55-69), starting at input offset `i`: each iteration reads
the three bytes `unenc[i..i+2]` and emits four alphabet characters. -/
def b64encGroups (unenc : List Nat) : Nat → Nat → List Char
  | _, 0 => []
  | i, g + 1 =>
    let u0 := unenc.getD i 0 % 256
    let u1 := unenc.getD (i + 1) 0 % 256
    let u2 := unenc.getD (i + 2) 0 % 256
    [ mapChar ((u0 >>> 2) % 256),
      mapChar ((((u0 &&& 3) <<< 4) ||| (u1 >>> 4)) % 256),
      mapChar ((((u1 &&& 15) <<< 2) ||| (u2 >>> 6)) % 256),
      mapChar ((u2 &&& 63) % 256) ]
      ++ b64encGroups unenc (i + 3) g

/-- The data characters `b64enc` writes (everything before the final NUL):
the main loop's groups followed by the `switch (remainder)` of `b64.c`
lines 74-92.  Note that the `remainder == 2` branch reads
`unenc[i + 2] = unenc[unenc_len]`, one byte past the end of the input
(`b64.c` line 78), faithfully reproduced here. -/
def b64encData (unenc : List Nat) (unenc_len : Nat) : List Char :=
  let remainder := unenc_len % 3
  let i := unenc_len - remainder
  let full := b64encGroups unenc 0 (encLoopIters unenc_len)
  match remainder with
  | 2 =>
    let u0 := unenc.getD i 0 % 256
    let u1 := unenc.getD (i + 1) 0 % 256
    let u2 := unenc.getD (i + 2) 0 % 256
    full ++ [ mapChar ((u0 >>> 2) % 256),
              mapChar ((((u0 &&& 3) <<< 4) ||| (u1 >>> 4)) % 256),
              mapChar ((((u1 &&& 15) <<< 2) ||| (u2 >>> 6)) % 256),
              b64pad ]
  | 1 =>
    let u0 := unenc.getD i 0 % 256
    full ++ [ mapChar ((u0 >>> 2) % 256),
              mapChar (((u0 &&& 3) <<< 4) % 256),
              b64pad, b64pad ]
  | _ => full

/-- `b64enc` (`b64.c` lines 42-98): returns the characters written to `enc`
(data characters followed by the NUL terminator) and the return value `j`,
which counts the characters written before the terminator. -/
def b64enc (unenc : List Nat) (unenc_len : Nat) : List Char × Nat :=
  (b64encData unenc unenc_len ++ [NUL], (b64encData unenc unenc_len).length)

/-- `b64declen` (`b64.c` lines 100-123).  The index of the terminator test
is `enc_len - 1` in `size_t` arithmetic (`szSub`), so `enc_len = 0` probes
index `2^64 - 1`.  In the reachable final branch `dec_len ≥ 3`, so the two
decrements cannot wrap and plain `Nat` subtraction is exact. -/
def b64declen (enc : List Char) (enc_len : Nat) : Nat :=
  if enc.getD (szSub enc_len 1) NUL ≠ NUL then 0
  else if enc_len < 4 then 0
  else if szSub enc_len 1 % 4 ≠ 0 then 0
  else
    let dec0 := szSub enc_len 1 / 4 * 3
    let dec1 := if enc.getD (szSub enc_len 2) NUL = b64pad then dec0 - 1 else dec0
    let dec2 := if enc.getD (szSub enc_len 3) NUL = b64pad then dec1 - 1 else dec1
    dec2

/-- The `padded` counter of `b64dec` (`b64.c` lines 133-135): one for each
padding character at text positions `enc_len - 2` and `enc_len - 3`
(`size_t` indices). -/
def padCount (enc : List Char) (enc_len : Nat) : Nat :=
  (if enc.getD (szSub enc_len 2) NUL = b64pad then 1 else 0) +
  (if enc.getD (szSub enc_len 3) NUL = b64pad then 1 else 0)

/-- Upper bound of the decoder's main loop
`for (i = 0; i < enc_len - padded - 4; i += 4)` (`b64.c` line 146),
computed in `size_t` arithmetic: `enc_len - padded - 4` underflows (wraps
to near `2^64`) whenever `enc_len < padded + 4`. -/
def decLoopBound (enc_len padded : Nat) : Nat := szSub (szSub enc_len padded) 4

/-- Number of iterations of the decoder's main loop: `i` steps by 4 from 0
while `i <` the bound, hence `⌈bound / 4⌉` iterations. -/
def decLoopIters (enc_len padded : Nat) : Nat :=
  (decLoopBound enc_len padded + 3) / 4

/-- Value of `i` when the decoder's main loop exits: the least multiple of
4 that is `≥` the bound. -/
def decFinalI (enc_len padded : Nat) : Nat := 4 * decLoopIters enc_len padded

/-- Bytes written by `g` iterations of the decoder's main loop (`b64.c`
lines 146-159), starting at text offset `i`: each iteration looks up the
four characters `enc[i..i+3]` and emits three bytes. -/
def b64decGroups (enc : List Char) : Nat → Nat → List Nat
  | _, 0 => []
  | i, g + 1 =>
    let b0 := b64idx (enc.getD i NUL) % 256
    let b1 := b64idx (enc.getD (i + 1) NUL) % 256
    let b2 := b64idx (enc.getD (i + 2) NUL) % 256
    let b3 := b64idx (enc.getD (i + 3) NUL) % 256
    [ ((b0 <<< 2) ||| (b1 >>> 4)) % 256,
      ((b1 <<< 4) ||| (b2 >>> 2)) % 256,
      ((b2 <<< 6) ||| b3) % 256 ]
      ++ b64decGroups enc (i + 4) g

/-- `b64dec` (`b64.c` lines 125-178): returns the bytes written to `dec`
(in order) and the return value `j`, which counts them.  The structural
check, the `padded` computation, the main loop and the
`switch (padded)` of lines 162-175 are translated directly. -/
def b64dec (enc : List Char) (enc_len : Nat) : List Nat × Nat :=
  if szSub enc_len 1 % 4 ≠ 0 then ([], 0)
  else
    let padded := padCount enc enc_len
    let iters := decLoopIters enc_len padded
    let full := b64decGroups enc 0 iters
    let i := decFinalI enc_len padded
    let writes :=
      match padded with
      | 1 =>
        let b0 := b64idx (enc.getD i NUL) % 256
        let b1 := b64idx (enc.getD (i + 1) NUL) % 256
        let b2 := b64idx (enc.getD (i + 2) NUL) % 256
        full ++ [ ((b0 <<< 2) ||| (b1 >>> 4)) % 256,
                  ((b1 <<< 4) ||| (b2 >>> 2)) % 256 ]
      | 2 =>
        let b0 := b64idx (enc.getD i NUL) % 256
        let b1 := b64idx (enc.getD (i + 1) NUL) % 256
        full ++ [ ((b0 <<< 2) ||| (b1 >>> 4)) % 256 ]
      | _ => full
    (writes, writes.length)

/-- Indices of the input buffer read by `g` iterations of the encoder's
main loop starting at offset `i`: each iteration reads `i`, `i+1`, `i+2`. -/
def b64encReadsLoop : Nat → Nat → List Nat
  | _, 0 => []
  | i, g + 1 => [i, i + 1, i + 2] ++ b64encReadsLoop (i + 3) g

/-- Read footprint of `b64enc` on its input buffer, following the access
pattern of the loop and the `switch (remainder)` (`b64.c` lines 55-92):
the `remainder == 2` branch reads `i`, `i+1` and `i+2 = unenc_len`, the
`remainder == 1` branch reads `i` only. -/
def b64encReads (unenc_len : Nat) : List Nat :=
  let remainder := unenc_len % 3
  let i := unenc_len - remainder
  let fromLoop := b64encReadsLoop 0 (encLoopIters unenc_len)
  match remainder with
  | 2 => fromLoop ++ [i, i + 1, i + 2]
  | 1 => fromLoop ++ [i]
  | _ => fromLoop

/-- Read footprint of `b64dec` on its encoded buffer: after the structural
length check passes, the code reads the two padding-inspection positions
`enc_len - 2` and `enc_len - 3` (`size_t` indices), every index touched by
an iteration of the main loop, and the final-group indices of the
`switch (padded)`. -/
def b64decReads (enc : List Char) (enc_len : Nat) (idx : Nat) : Prop :=
  szSub enc_len 1 % 4 = 0 ∧
  (idx = szSub enc_len 2 ∨ idx = szSub enc_len 3 ∨
   (∃ i, i % 4 = 0 ∧ i < decLoopBound enc_len (padCount enc enc_len) ∧
     (idx = i ∨ idx = i + 1 ∨ idx = i + 2 ∨ idx = i + 3)) ∨
   (padCount enc enc_len = 1 ∧
     (idx = decFinalI enc_len 1 ∨ idx = decFinalI enc_len 1 + 1 ∨
      idx = decFinalI enc_len 1 + 2)) ∨
   (padCount enc enc_len = 2 ∧
     (idx = decFinalI enc_len 2 ∨ idx = decFinalI enc_len 2 + 1)))

/-! Helper lemmas. -/

lemma szSub_eq_sub {a b : Nat} (hb : b ≤ a) (ha : a < 2 ^ 64) : szSub a b = a - b := by
  have h : (2 : Nat) ^ 64 = 18446744073709551616 := by norm_num
  simp only [szSub, szMod, h]
  rw [h] at ha
  omega

lemma encLoopIters_eq (n : Nat) : encLoopIters n = n / 3 := by
  simp only [encLoopIters]
  omega

lemma b64encGroups_length (u : List Nat) : ∀ (g i : Nat),
    (b64encGroups u i g).length = 4 * g := by
  intro g
  induction g with
  | zero => intro i; rfl
  | succ k ih =>
    intro i
    simp only [b64encGroups, List.length_append, List.length_cons, List.length_nil, ih]
    omega

lemma b64map_length : b64map.length = 64 := by decide

lemma mapChar_mem {k : Nat} (h : k < 64) : mapChar k ∈ b64map := by
  have hl : k < b64map.length := by rw [b64map_length]; exact h
  unfold mapChar
  rw [List.getD_eq_getElem?_getD, List.getElem?_eq_getElem hl, Option.getD_some]
  exact List.getElem_mem hl

lemma b64pad_not_mem : b64pad ∉ b64map := by decide

lemma mod256_lt_64 {x : Nat} (h : x < 64) : x % 256 < 64 :=
  lt_of_le_of_lt (Nat.mod_le x 256) h

lemma or_lt_64 {x y : Nat} (hx : x < 64) (hy : y < 64) : x ||| y < 64 := by
  have hx6 : x < 2 ^ 6 := lt_of_lt_of_le hx (by norm_num)
  have hy6 : y < 2 ^ 6 := lt_of_lt_of_le hy (by norm_num)
  exact lt_of_lt_of_le (Nat.or_lt_two_pow hx6 hy6) (by norm_num)

lemma encIdx0_lt {u0 : Nat} (h : u0 < 256) : (u0 >>> 2) % 256 < 64 := by
  apply mod256_lt_64
  rw [Nat.shiftRight_eq_div_pow]
  have h4 : (2 : Nat) ^ 2 = 4 := by norm_num
  rw [h4]
  omega

lemma encIdx1_lt (u0 : Nat) {u1 : Nat} (h1 : u1 < 256) :
    (((u0 &&& 3) <<< 4) ||| (u1 >>> 4)) % 256 < 64 := by
  apply mod256_lt_64
  apply or_lt_64
  · rw [Nat.shiftLeft_eq]
    have ha : u0 &&& 3 ≤ 3 := Nat.and_le_right
    have h16 : (2 : Nat) ^ 4 = 16 := by norm_num
    rw [h16]
    omega
  · rw [Nat.shiftRight_eq_div_pow]
    have h16 : (2 : Nat) ^ 4 = 16 := by norm_num
    rw [h16]
    omega

lemma encIdx2_lt (u1 : Nat) {u2 : Nat} (h2 : u2 < 256) :
    (((u1 &&& 15) <<< 2) ||| (u2 >>> 6)) % 256 < 64 := by
  apply mod256_lt_64
  apply or_lt_64
  · rw [Nat.shiftLeft_eq]
    have ha : u1 &&& 15 ≤ 15 := Nat.and_le_right
    have h4 : (2 : Nat) ^ 2 = 4 := by norm_num
    rw [h4]
    omega
  · rw [Nat.shiftRight_eq_div_pow]
    have h64 : (2 : Nat) ^ 6 = 64 := by norm_num
    rw [h64]
    omega

lemma encIdx15_lt (u0 : Nat) : ((u0 &&& 3) <<< 4) % 256 < 64 := by
  apply mod256_lt_64
  rw [Nat.shiftLeft_eq]
  have ha : u0 &&& 3 ≤ 3 := Nat.and_le_right
  have h16 : (2 : Nat) ^ 4 = 16 := by norm_num
  rw [h16]
  omega

lemma encIdx3_lt (u2 : Nat) : (u2 &&& 63) % 256 < 64 :=
  mod256_lt_64 (lt_of_le_of_lt Nat.and_le_right (by norm_num))

lemma getD_mod_lt (u : List Nat) (i : Nat) : u.getD i 0 % 256 < 256 :=
  Nat.mod_lt _ (by norm_num)

lemma b64encGroups_mem (u : List Nat) : ∀ (g i : Nat),
    ∀ c ∈ b64encGroups u i g, c ∈ b64map := by
  intro g
  induction g with
  | zero => intro i c hc; simp [b64encGroups] at hc
  | succ k ih =>
    intro i c hc
    simp only [b64encGroups, List.cons_append, List.nil_append, List.mem_cons] at hc
    rcases hc with rfl | rfl | rfl | rfl | hc
    · exact mapChar_mem (encIdx0_lt (getD_mod_lt u i))
    · exact mapChar_mem (encIdx1_lt _ (getD_mod_lt u (i + 1)))
    · exact mapChar_mem (encIdx2_lt _ (getD_mod_lt u (i + 2)))
    · exact mapChar_mem (encIdx3_lt _)
    · exact ih (i + 3) c hc

lemma b64encData_mod0 (u : List Nat) (n : Nat) (h : n % 3 = 0) :
    b64encData u n = b64encGroups u 0 (encLoopIters n) := by
  simp only [b64encData, h]

lemma b64encData_mod1 (u : List Nat) (n : Nat) (h : n % 3 = 1) :
    b64encData u n = b64encGroups u 0 (encLoopIters n) ++
      [ mapChar (((u.getD (n - 1) 0 % 256) >>> 2) % 256),
        mapChar ((((u.getD (n - 1) 0 % 256) &&& 3) <<< 4) % 256),
        b64pad, b64pad ] := by
  simp only [b64encData, h]

lemma b64encData_mod2 (u : List Nat) (n : Nat) (h : n % 3 = 2) :
    b64encData u n = b64encGroups u 0 (encLoopIters n) ++
      [ mapChar (((u.getD (n - 2) 0 % 256) >>> 2) % 256),
        mapChar (((((u.getD (n - 2) 0 % 256) &&& 3) <<< 4) |||
          ((u.getD (n - 2 + 1) 0 % 256) >>> 4)) % 256),
        mapChar (((((u.getD (n - 2 + 1) 0 % 256) &&& 15) <<< 2) |||
          ((u.getD (n - 2 + 2) 0 % 256) >>> 6)) % 256),
        b64pad ] := by
  simp only [b64encData, h]

lemma b64encData_length (u : List Nat) (n : Nat) :
    (b64encData u n).length = 4 * (n / 3) + (if n % 3 = 0 then 0 else 4) := by
  have h3 : n % 3 = 0 ∨ n % 3 = 1 ∨ n % 3 = 2 := by omega
  rcases h3 with h3 | h3 | h3 <;>
    simp [b64encData, h3, b64encGroups_length, encLoopIters_eq]

/-! Claim theorems. -/

/-- C1: the round-trip property fails on the code.  Encoding the single
byte 0x66 (`"f"`) yields the five-character buffer `"Zg==\0"`, and
`b64declen` sizes its decoding at 1 byte; but `b64dec` on that buffer
computes `padded = 2`, so its loop bound `enc_len - padded - 4` underflows
in `size_t` to `2^64 - 1` and the group loop runs `2^62` iterations
(reading and writing far out of bounds) instead of writing back the one
original byte and returning 1. -/
theorem b64enc_single_byte_breaks_decode :
    (b64enc [102] 1).1 = ['Z', 'g', '=', '=', NUL] ∧
    (b64enc [102] 1).2 = 4 ∧
    b64declen (b64enc [102] 1).1 ((b64enc [102] 1).2 + 1) = 1 ∧
    padCount (b64enc [102] 1).1 ((b64enc [102] 1).2 + 1) = 2 ∧
    decLoopIters ((b64enc [102] 1).2 + 1) 2 = 2 ^ 62 := by
  decide

/-- C2: for every length `n` in the `size_t` domain (no overflow of the
result), `b64enclen n` is `(n + 2) / 3 * 4 + 1`, which is one more than
both the number of data characters `b64enc` writes and its return value,
for any input contents; and `b64enclen 0 = 1`. -/
theorem b64enclen_formula (n : Nat) (unenc : List Nat)
    (h : (n + 2) / 3 * 4 + 1 < 2 ^ 64) :
    b64enclen n = (n + 2) / 3 * 4 + 1 ∧
    b64enclen n = (b64enc unenc n).2 + 1 ∧
    b64enclen 0 = 1 := by
  have hn2 : n + 2 < 2 ^ 64 := by
    by_contra hc
    push_neg at hc
    have h1 : 2 ^ 64 / 3 ≤ (n + 2) / 3 := Nat.div_le_div_right hc
    have h2 : 2 ^ 64 / 3 * 4 ≤ (n + 2) / 3 * 4 := Nat.mul_le_mul_right 4 h1
    have h3 : (2 ^ 64 : Nat) < 2 ^ 64 / 3 * 4 + 1 := by norm_num
    omega
  have hfirst : b64enclen n = (n + 2) / 3 * 4 + 1 := by
    simp only [b64enclen, szMod]
    rw [Nat.mod_eq_of_lt hn2, Nat.mod_eq_of_lt h]
  refine ⟨hfirst, ?_, by decide⟩
  have hlen := b64encData_length unenc n
  have hsnd : (b64enc unenc n).2 = (b64encData unenc n).length := rfl
  rw [hfirst, hsnd, hlen]
  have h3 : n % 3 = 0 ∨ n % 3 = 1 ∨ n % 3 = 2 := by omega
  rcases h3 with h3 | h3 | h3 <;> simp only [h3] <;> simp <;> omega

/-- Witness for C2 at `n = 5`. -/
theorem b64enclen_formula_witness :
    (5 + 2) / 3 * 4 + 1 < 2 ^ 64 ∧
    (b64enclen 5 = (5 + 2) / 3 * 4 + 1 ∧
     b64enclen 5 = (b64enc [10, 20, 30, 40, 50] 5).2 + 1 ∧
     b64enclen 0 = 1) :=
  ⟨by norm_num, b64enclen_formula 5 [10, 20, 30, 40, 50] (by norm_num)⟩

/-- C3: after the `4 * (n / 3)` characters of the full three-byte groups
(all of which are alphabet characters), `b64enc` emits nothing when
`n % 3 = 0`, three data characters and one `'='` when `n % 3 = 2`, and two
data characters and two `'='` when `n % 3 = 1`; the padding character is
not in the alphabet, so data and padding characters are disjoint. -/
theorem b64enc_padding (unenc : List Nat) (n : Nat) :
    (∀ c ∈ (b64encData unenc n).take (4 * (n / 3)), c ∈ b64map) ∧
    b64pad ∉ b64map ∧
    (n % 3 = 0 → (b64encData unenc n).drop (4 * (n / 3)) = []) ∧
    (n % 3 = 2 → ∃ a b c, a ∈ b64map ∧ b ∈ b64map ∧ c ∈ b64map ∧
      (b64encData unenc n).drop (4 * (n / 3)) = [a, b, c, b64pad]) ∧
    (n % 3 = 1 → ∃ a b, a ∈ b64map ∧ b ∈ b64map ∧
      (b64encData unenc n).drop (4 * (n / 3)) = [a, b, b64pad, b64pad]) := by
  have hF : (b64encGroups unenc 0 (encLoopIters n)).length = 4 * (n / 3) := by
    rw [b64encGroups_length, encLoopIters_eq]
  have hmem := b64encGroups_mem unenc (encLoopIters n) 0
  have h3 : n % 3 = 0 ∨ n % 3 = 1 ∨ n % 3 = 2 := by omega
  rcases h3 with h3 | h3 | h3
  · rw [b64encData_mod0 unenc n h3]
    refine ⟨fun c hc => hmem c (List.take_subset _ _ hc), b64pad_not_mem,
      fun _ => ?_,
      fun h2 => absurd (h3.symm.trans h2) (by decide),
      fun h1 => absurd (h3.symm.trans h1) (by decide)⟩
    rw [← hF, List.drop_length]
  · rw [b64encData_mod1 unenc n h3]
    refine ⟨?_, b64pad_not_mem,
      fun h0 => absurd (h3.symm.trans h0) (by decide),
      fun h2 => absurd (h3.symm.trans h2) (by decide),
      fun _ => ?_⟩
    · rw [← hF, List.take_left]
      exact fun c hc => hmem c hc
    · rw [← hF, List.drop_left]
      exact ⟨_, _, mapChar_mem (encIdx0_lt (getD_mod_lt unenc (n - 1))),
        mapChar_mem (encIdx15_lt _), rfl⟩
  · rw [b64encData_mod2 unenc n h3]
    refine ⟨?_, b64pad_not_mem,
      fun h0 => absurd (h3.symm.trans h0) (by decide),
      fun _ => ?_,
      fun h1 => absurd (h3.symm.trans h1) (by decide)⟩
    · rw [← hF, List.take_left]
      exact fun c hc => hmem c hc
    · rw [← hF, List.drop_left]
      exact ⟨_, _, _, mapChar_mem (encIdx0_lt (getD_mod_lt unenc (n - 2))),
        mapChar_mem (encIdx1_lt _ (getD_mod_lt unenc (n - 2 + 1))),
        mapChar_mem (encIdx2_lt _ (getD_mod_lt unenc (n - 2 + 2))), rfl⟩

/-- Witness for C3 at `unenc = [102, 111]`, `n = 2` (the `n % 3 = 2`
branch). -/
theorem b64enc_padding_witness :
    ∃ a b c, a ∈ b64map ∧ b ∈ b64map ∧ c ∈ b64map ∧
      (b64encData [102, 111] 2).drop (4 * (2 / 3)) = [a, b, c, b64pad] :=
  (b64enc_padding [102, 111] 2).2.2.2.1 rfl

/-- C4: `b64declen` returns the sentinel 0 for every buffer/length pair in
the `size_t` domain that is empty, lacks the NUL terminator at position
`m - 1`, is shorter than 4, or whose text length `m - 1` is not a multiple
of 4. -/
theorem b64declen_rejects_invalid (enc : List Char) (m : Nat) (hW : m < 2 ^ 64)
    (h : m = 0 ∨ enc.getD (m - 1) NUL ≠ NUL ∨ m < 4 ∨ (m - 1) % 4 ≠ 0) :
    b64declen enc m = 0 := by
  unfold b64declen
  by_cases h1 : enc.getD (szSub m 1) NUL ≠ NUL
  · rw [if_pos h1]
  · rw [if_neg h1]
    by_cases h2 : m < 4
    · rw [if_pos h2]
    · rw [if_neg h2]
      have hs : szSub m 1 = m - 1 := szSub_eq_sub (by omega) hW
      rw [hs] at h1 ⊢
      push_neg at h1
      have hmod : (m - 1) % 4 ≠ 0 := by
        rcases h with h | h | h | h
        · omega
        · exact absurd h1 h
        · omega
        · exact h
      rw [if_pos hmod]

/-- Witness for C4 at the empty string, `m = 0`. -/
theorem b64declen_rejects_invalid_witness : b64declen [] 0 = 0 :=
  b64declen_rejects_invalid [] 0 (by norm_num) (Or.inl rfl)

/-- C5: on every structurally valid input in the `size_t` domain
(terminated, `m ≥ 4`, text length a multiple of 4), `b64declen` returns
`(m - 1) / 4 * 3` minus one for each padding character among the last two
text positions (`padCount`). -/
theorem b64declen_valid_length (enc : List Char) (m : Nat) (hW : m < 2 ^ 64)
    (h4 : 4 ≤ m) (hmod : (m - 1) % 4 = 0) (hterm : enc.getD (m - 1) NUL = NUL) :
    b64declen enc m = (m - 1) / 4 * 3 - padCount enc m := by
  have hs1 : szSub m 1 = m - 1 := szSub_eq_sub (by omega) hW
  have hs2 : szSub m 2 = m - 2 := szSub_eq_sub (by omega) hW
  have hs3 : szSub m 3 = m - 3 := szSub_eq_sub (by omega) hW
  unfold b64declen padCount
  rw [hs1, hs2, hs3]
  rw [if_neg (not_not_intro hterm), if_neg (by omega), if_neg (not_not_intro hmod)]
  split_ifs <;> (try dsimp only) <;> omega

/-- Witness for C5: the two concrete values named by the claim. -/
theorem b64declen_valid_length_witness :
    b64declen ("Zm9vYmFy".data ++ [NUL]) 9 = 6 ∧
    b64declen ("Zg==".data ++ [NUL]) 5 = 1 := by
  have h1 := b64declen_valid_length ("Zm9vYmFy".data ++ [NUL]) 9
    (by norm_num) (by norm_num) (by norm_num) (by decide)
  have h2 := b64declen_valid_length ("Zg==".data ++ [NUL]) 5
    (by norm_num) (by norm_num) (by norm_num) (by decide)
  rw [h1, h2]
  decide

/-- C6: whenever the structural check `(enc_len - 1) % 4 != 0` (computed
in `size_t` arithmetic) fails, `b64dec` returns 0 having written
nothing. -/
theorem b64dec_modcheck_no_write (enc : List Char) (enc_len : Nat)
    (h : szSub enc_len 1 % 4 ≠ 0) : b64dec enc enc_len = ([], 0) := by
  unfold b64dec
  rw [if_pos h]

/-- Witness for C6 at `enc_len = 3`. -/
theorem b64dec_modcheck_no_write_witness : b64dec [] 3 = ([], 0) :=
  b64dec_modcheck_no_write [] 3 (by decide)

/-- C7: the four encode vectors of the spec hold, and three of the four
decode vectors invert them exactly; but decoding `"Zg==\0"` (the vector
for `"f"`) hits the underflowed loop bound `2^64 - 1`, so `b64dec` does
not invert `b64enc` there. -/
theorem b64_concrete_vectors :
    (b64enc [102] 1).1 = "Zg==".data ++ [NUL] ∧ (b64enc [102] 1).2 = 4 ∧
    (b64enc [102, 111] 2).1 = "Zm8=".data ++ [NUL] ∧
    (b64enc [102, 111] 2).2 = 4 ∧
    (b64enc [102, 111, 111] 3).1 = "Zm9v".data ++ [NUL] ∧
    (b64enc [102, 111, 111] 3).2 = 4 ∧
    (b64enc [102, 111, 111, 98, 97, 114] 6).1 = "Zm9vYmFy".data ++ [NUL] ∧
    (b64enc [102, 111, 111, 98, 97, 114] 6).2 = 8 ∧
    b64dec ("Zm8=".data ++ [NUL]) 5 = ([102, 111], 2) ∧
    b64dec ("Zm9v".data ++ [NUL]) 5 = ([102, 111, 111], 3) ∧
    b64dec ("Zm9vYmFy".data ++ [NUL]) 9 = ([102, 111, 111, 98, 97, 114], 6) ∧
    decLoopBound 5 (padCount ("Zg==".data ++ [NUL]) 5) = 2 ^ 64 - 1 := by
  decide

/-- C8: the encoder's loop count is linear in the input length, but the
decoder's group loop on the minimal double-padded input (`enc_len = 5`,
`padded = 2`) runs `2^62` iterations because its bound underflows — not
time proportional to the input length 5. -/
theorem b64_loop_iteration_counts :
    encLoopIters 5 ≤ 5 ∧ decLoopIters 5 2 = 2 ^ 62 ∧ 5 < decLoopIters 5 2 := by
  decide

/-- C9: the read footprint of `b64enc` on a 2-byte input is `[0, 1, 2]`:
the `remainder == 2` branch reads index `2 = unenc_len`, one byte past the
end of the input buffer (`b64.c` line 78), so the claim that only indices
`0 .. unenc_len - 1` are read is false. -/
theorem b64enc_read_footprint_n2 : b64encReads 2 = [0, 1, 2] := by decide

/-- C10: `b64dec` reads out of bounds on inputs passing its structural
check: on `"Zg==\0"` (`enc_len = 5`) the underflowed loop bound makes the
group loop read index 5 (at `i = 4`), and on `enc_len = 1` the padding
inspection reads index `2^64 - 1`. -/
theorem b64dec_read_out_of_bounds :
    b64decReads ("Zg==".data ++ [NUL]) 5 5 ∧
    b64decReads [NUL] 1 (2 ^ 64 - 1) := by
  constructor
  · exact ⟨by decide, Or.inr (Or.inr (Or.inl
      ⟨4, by decide, by decide, Or.inr (Or.inl rfl)⟩))⟩
  · exact ⟨by decide, Or.inl (by decide)⟩
